import Mathlib

/-!
Verification of the tabular data pipeline of the lab-inventory web client
(`sw.js` / `script.js`): row-to-record normalization, table filtering,
chart computations, HTML-escaped rendering, form-submission validation and
CSV export.  JavaScript values are shallowly embedded: numbers are modelled
as integers-or-NaN, objects as insertion-ordered association lists with
unique keys, and the relevant truthiness / string-coercion rules of the
source are made explicit.
-/

namespace Sw

/-- JavaScript numbers as they occur in this program: an integer or NaN.
(No fractional values are needed by any property we check.) -/
inductive JsNum where
  | nan : JsNum
  | int : Int → JsNum
deriving DecidableEq, Repr

/-- JavaScript cell / field values occurring in the pipeline. -/
inductive Value where
  | vstr : String → Value
  | vnum : JsNum → Value
  | vbool : Bool → Value
  | vnull : Value
  | vundefined : Value
deriving DecidableEq, Repr

/-- JavaScript `String(v)` coercion. -/
def jsToString : Value → String
  | .vstr s => s
  | .vnum .nan => "NaN"
  | .vnum (.int n) => toString n
  | .vbool true => "true"
  | .vbool false => "false"
  | .vnull => "null"
  | .vundefined => "undefined"

/-- JavaScript truthiness of a value. -/
def truthy : Value → Bool
  | .vstr s => s ≠ ""
  | .vnum .nan => false
  | .vnum (.int n) => n ≠ 0
  | .vbool b => b
  | .vnull => false
  | .vundefined => false

/-- JavaScript `a || b`. -/
def jsOr (a b : Value) : Value := if truthy a then a else b

/-- A JavaScript object as produced by this program: an association list in
property-insertion order, with unique keys maintained by `objInsert`. -/
abbrev Record := List (String × Value)

/-- JavaScript property assignment `obj[k] = v`: overwrite in place if the
key exists, otherwise append. -/
def objInsert (k : String) (v : Value) : Record → Record
  | [] => [(k, v)]
  | (k2, v2) :: r => if k2 = k then (k2, v) :: r else (k2, v2) :: objInsert k v r

/-- The keys of an object, in property order. -/
def keys (r : Record) : List String := r.map Prod.fst

/-- Property lookup (first match; records built by `objInsert` have unique
keys).  `none` models an absent property. -/
def getVal (k : String) : Record → Option Value
  | [] => none
  | (k2, v) :: r => if k2 = k then some v else getVal k r

/-- JavaScript `r[k]`: the stored value, or `undefined` when absent. -/
def getProp (r : Record) (k : String) : Value := (getVal k r).getD .vundefined

/-- `Object.values(r)`, in property order. -/
def objValues (r : Record) : List Value := r.map Prod.snd

/-- The cell paired with header index position: `row[j] !== undefined ? row[j] : ''`
for the head of the remaining row, `''` when the row has run out. -/
def headCell : List Value → Value
  | [] => .vstr ""
  | v :: _ => if v = .vundefined then .vstr "" else v

/-- The inner loop of `toObjects` (sw.js:108-113): walk the headers, pairing
header `j` with cell `j`, assigning into the object under construction. -/
def buildRecordAux (obj : Record) : List String → List Value → Record
  | [], _ => obj
  | h :: hs, row => buildRecordAux (objInsert h (headCell row) obj) hs row.tail

/-- One normalized record: header list paired with one data row. -/
def buildRecord (headers : List String) (row : List Value) : Record :=
  buildRecordAux [] headers row

/-- JavaScript `String.prototype.trim`: strip leading and trailing
whitespace (char-level model of `String.trim`). -/
def jsTrim (s : String) : String :=
  ⟨((s.data.dropWhile Char.isWhitespace).reverse.dropWhile Char.isWhitespace).reverse⟩

/-- The trimmed header strings `rows[0].map(h => String(h).trim())` (sw.js:106). -/
def trimHeaders (row0 : List Value) : List String :=
  row0.map (fun h => jsTrim (jsToString h))

/-- `toObjects` (sw.js:104-115): convert sheet rows (row 0 = headers) to an
array of objects.  `none` models a null/undefined argument. -/
def toObjects : Option (List (List Value)) → List Record
  | none => []
  | some [] => []
  | some (row0 :: rest) => rest.map (buildRecord (trimHeaders row0))

/-! ### Basic record lemmas -/

theorem keys_objInsert (k : String) (v : Value) (r : Record) :
    keys (objInsert k v r) = if k ∈ keys r then keys r else keys r ++ [k] := by
  induction r with
  | nil => simp [objInsert, keys]
  | cons p r ih =>
    obtain ⟨k2, v2⟩ := p
    by_cases h : k2 = k
    · subst h
      simp [objInsert, keys]
    · simp only [objInsert, if_neg h, keys, List.map_cons] at ih ⊢
      rw [ih]
      have : (k ∈ k2 :: List.map Prod.fst r) ↔ (k ∈ List.map Prod.fst r) := by
        constructor
        · intro hm
          rcases List.mem_cons.mp hm with h1 | h1
          · exact absurd h1.symm h
          · exact h1
        · exact fun hm => List.mem_cons_of_mem _ hm
      by_cases hm : k ∈ List.map Prod.fst r
      · simp [hm, this]
      · simp [hm, this]

theorem getVal_objInsert (k k2 : String) (v : Value) (r : Record) :
    getVal k2 (objInsert k v r) = if k2 = k then some v else getVal k2 r := by
  induction r with
  | nil =>
    by_cases h : k2 = k
    · simp [objInsert, getVal, h]
    · have h2 : ¬ (k = k2) := fun he => h he.symm
      simp [objInsert, getVal, h, h2]
  | cons p r ih =>
    obtain ⟨k3, v3⟩ := p
    by_cases h3 : k3 = k
    · subst h3
      by_cases h : k2 = k3
      · simp [objInsert, getVal, h]
      · have h2 : ¬ (k3 = k2) := fun he => h he.symm
        simp [objInsert, getVal, h, h2]
    · by_cases h : k2 = k3
      · subst h
        have hk : ¬ (k2 = k) := fun he => h3 (he ▸ rfl)
        simp [objInsert, if_neg h3, getVal, hk]
      · have h2 : ¬ (k3 = k2) := fun he => h he.symm
        simp [objInsert, if_neg h3, getVal, h, h2, ih]

theorem getVal_buildRecordAux_not_mem (k : String) (hs : List String)
    (row : List Value) (obj : Record) (hk : k ∉ hs) :
    getVal k (buildRecordAux obj hs row) = getVal k obj := by
  induction hs generalizing obj row with
  | nil => rfl
  | cons h hs ih =>
    have hne : ¬ (k = h) := fun he => hk (he ▸ List.mem_cons_self h hs)
    have hk2 : k ∉ hs := fun hm => hk (List.mem_cons_of_mem _ hm)
    rw [buildRecordAux, ih _ _ hk2, getVal_objInsert, if_neg hne]

theorem keys_buildRecordAux (hs : List String) (row : List Value) (obj : Record)
    (hnd : (keys obj ++ hs).Nodup) :
    keys (buildRecordAux obj hs row) = keys obj ++ hs := by
  induction hs generalizing obj row with
  | nil => simp [buildRecordAux]
  | cons h hs ih =>
    have hhm : h ∉ keys obj := fun hm =>
      (List.disjoint_of_nodup_append hnd) hm (List.mem_cons_self h hs)
    have hkeys : keys (objInsert h (headCell row) obj) = keys obj ++ [h] := by
      rw [keys_objInsert, if_neg hhm]
    have hnd2 : (keys (objInsert h (headCell row) obj) ++ hs).Nodup := by
      rw [hkeys, List.append_assoc, List.singleton_append]
      exact hnd
    rw [buildRecordAux, ih _ _ hnd2, hkeys, List.append_assoc, List.singleton_append]

theorem keys_buildRecord (hs : List String) (row : List Value) (hnd : hs.Nodup) :
    keys (buildRecord hs row) = hs := by
  have := keys_buildRecordAux hs row [] (by simpa [keys] using hnd)
  simpa [buildRecord, keys] using this

theorem getVal_buildRecordAux (hs : List String) (row : List Value) (obj : Record)
    (hnd : hs.Nodup) (j : Nat) (hj : j < hs.length) :
    getVal (hs.get ⟨j, hj⟩) (buildRecordAux obj hs row) = some (headCell (row.drop j)) := by
  induction hs generalizing obj row j with
  | nil => exact absurd hj (Nat.not_lt_zero j)
  | cons h hs ih =>
    match j with
    | 0 =>
      have hh : h ∉ hs := (List.nodup_cons.mp hnd).1
      show getVal h (buildRecordAux (objInsert h (headCell row) obj) hs row.tail) = _
      rw [getVal_buildRecordAux_not_mem h hs row.tail _ hh, getVal_objInsert, if_pos rfl]
      simp
    | j + 1 =>
      have hnd2 : hs.Nodup := (List.nodup_cons.mp hnd).2
      have hj2 : j < hs.length := Nat.lt_of_succ_lt_succ hj
      have hdrop : row.tail.drop j = row.drop (j + 1) := by
        rw [← List.drop_one, List.drop_drop, Nat.add_comm 1 j]
      show getVal ((h :: hs).get ⟨j + 1, hj⟩)
          (buildRecordAux (objInsert h (headCell row) obj) hs row.tail) = _
      have hget : (h :: hs).get ⟨j + 1, hj⟩ = hs.get ⟨j, hj2⟩ := rfl
      rw [hget, ih row.tail _ hnd2 j hj2, hdrop]

theorem getVal_buildRecord (hs : List String) (row : List Value) (hnd : hs.Nodup)
    (j : Nat) (hj : j < hs.length) :
    getVal (hs.get ⟨j, hj⟩) (buildRecord hs row) = some (headCell (row.drop j)) :=
  getVal_buildRecordAux hs row [] hnd j hj

/-- C1: normalization record count, key sets and missing-cell default
(amended: the trimmed headers must be pairwise distinct). -/
theorem c1_toObjects_shape (row0 : List Value) (rest : List (List Value))
    (hnd : (trimHeaders row0).Nodup) :
    (toObjects (some (row0 :: rest))).length = rest.length ∧
    (∀ rec ∈ toObjects (some (row0 :: rest)), keys rec = trimHeaders row0) ∧
    (∀ row ∈ rest, ∀ j : Nat, ∀ hj : j < (trimHeaders row0).length,
      getVal ((trimHeaders row0).get ⟨j, hj⟩) (buildRecord (trimHeaders row0) row) =
        some (headCell (row.drop j))) ∧
    (∀ row ∈ rest, ∀ j : Nat, ∀ hj : j < (trimHeaders row0).length,
      row.length ≤ j →
      getVal ((trimHeaders row0).get ⟨j, hj⟩) (buildRecord (trimHeaders row0) row) =
        some (.vstr "")) := by
  refine ⟨by simp [toObjects], ?_, ?_, ?_⟩
  · intro rec hrec
    rw [toObjects] at hrec
    obtain ⟨row, _, hrow⟩ := List.mem_map.mp hrec
    rw [← hrow]
    exact keys_buildRecord _ _ hnd
  · intro row _ j hj
    exact getVal_buildRecord _ _ hnd j hj
  · intro row _ j hj hlen
    rw [getVal_buildRecord _ _ hnd j hj, List.drop_eq_nil_of_le hlen]
    rfl

/-- C1 witness: a concrete header row with distinct trimmed headers. -/
theorem c1_toObjects_shape_witness :
    trimHeaders [Value.vstr " a ", Value.vstr "b"] = ["a", "b"] ∧
    (toObjects (some [[.vstr " a ", .vstr "b"], [.vstr "x"]])).length = 1 ∧
    (∀ rec ∈ toObjects (some [[Value.vstr " a ", Value.vstr "b"], [Value.vstr "x"]]),
      keys rec = trimHeaders [Value.vstr " a ", Value.vstr "b"]) := by
  have h := c1_toObjects_shape [.vstr " a ", .vstr "b"] [[.vstr "x"]] (by decide)
  exact ⟨by decide, h.1, h.2.1⟩

/-- C1 counterexample: duplicate headers collapse, so a record can have fewer
keys than the header row has entries. -/
theorem c1_duplicate_headers_counterexample :
    (keys ((toObjects (some [[.vstr "a", .vstr "a"], [.vstr "x", .vstr "y"]])).headD [])).length = 1 ∧
    ([Value.vstr "a", Value.vstr "a"] : List Value).length = 2 := by
  constructor
  · rfl
  · rfl

/-- C8: `toObjects` yields the empty sequence on null/undefined input, on an
empty row list, and on a header-only row list. -/
theorem c8_toObjects_degenerate :
    toObjects none = [] ∧ toObjects (some []) = [] ∧
    ∀ row0 : List Value, toObjects (some [row0]) = [] :=
  ⟨rfl, rfl, fun _ => rfl⟩

/-! ### Filtering (renderInventoryTable / renderRepairsTable, sw.js:204-208, 246-250) -/

/-- Lower-casing a string, character by character (`String.prototype.toLowerCase`). -/
def jsToLower (s : String) : String := ⟨s.data.map Char.toLower⟩

/-- Substring containment on character lists (semantics of
`String.prototype.includes`). -/
def containsSub (pat : List Char) : List Char → Bool
  | [] => pat.isEmpty
  | c :: rest => pat.isPrefixOf (c :: rest) || containsSub pat rest

/-- JavaScript `s.includes(q)`. -/
def jsIncludes (s q : String) : Bool := containsSub q.data s.data

/-- The row filter of the table renderers (sw.js:204-208 and 246-250):
empty query matches everything, otherwise some field's string form,
lower-cased, must contain the lower-cased query. -/
def rowMatches (q : String) (r : Record) : Bool :=
  if q = "" then true
  else (objValues r).any (fun v => jsIncludes (jsToLower (jsToString v)) (jsToLower q))

/-- The subset of rows rendered for a query. -/
def filterRows (q : String) (data : List Record) : List Record :=
  data.filter (rowMatches q)

/-- C3: filtering selects exactly the records with some case-insensitively
matching field, an empty query selects everything, and the stored dataset is
only subsetted, never modified. -/
theorem c3_filtering (q : String) (data : List Record) :
    (q = "" → filterRows q data = data) ∧
    (∀ r, r ∈ filterRows q data ↔ r ∈ data ∧
      (q = "" ∨ (objValues r).any
        (fun v => jsIncludes (jsToLower (jsToString v)) (jsToLower q)) = true)) ∧
    (filterRows q data).Sublist data := by
  refine ⟨?_, ?_, List.filter_sublist data⟩
  · intro hq
    subst hq
    simp [filterRows, rowMatches]
  · intro r
    rw [filterRows, List.mem_filter]
    constructor
    · rintro ⟨hm, hp⟩
      refine ⟨hm, ?_⟩
      by_cases hq : q = ""
      · exact Or.inl hq
      · rw [rowMatches, if_neg hq] at hp
        exact Or.inr hp
    · rintro ⟨hm, hp⟩
      refine ⟨hm, ?_⟩
      by_cases hq : q = ""
      · simp [rowMatches, hq]
      · rcases hp with hp | hp
        · exact absurd hp hq
        · rw [rowMatches, if_neg hq]
          exact hp

/-- C3 witness: a non-empty query matching a field case-insensitively, and
an empty query returning everything. -/
theorem c3_filtering_witness :
    filterRows "" [[("Name", Value.vstr "Mouse")]] = [[("Name", Value.vstr "Mouse")]] ∧
    [("Name", Value.vstr "Mouse")] ∈ filterRows "mOU" [[("Name", Value.vstr "Mouse")]] := by
  constructor
  · exact (c3_filtering "" [[("Name", Value.vstr "Mouse")]]).1 rfl
  · exact ((c3_filtering "mOU" [[("Name", Value.vstr "Mouse")]]).2.1 _).mpr
      ⟨by decide, Or.inr (by decide)⟩

/-! ### Pie chart (drawCharts, sw.js:131-142) -/

/-- `String(i.Condition || '').toLowerCase().includes('work')` (sw.js:133). -/
def conditionMatches (i : Record) : Bool :=
  jsIncludes (jsToLower (jsToString (jsOr (getProp i "Condition") (.vstr "")))) "work"

/-- The pie chart's Working count (sw.js:133). -/
def pieWorking (inv : List Record) : Nat := (inv.filter conditionMatches).length

/-- The pie chart's Under Repair count
`Math.max(0, (inventoryData.length || 0) - working)` (sw.js:134). -/
def pieUnder (inv : List Record) : Int :=
  max 0 ((inv.length : Int) - (pieWorking inv : Int))

/-- C5: the Working count is the number of records whose Condition contains
"work" case-insensitively; Under Repair is total minus Working (the floor at
zero never truncates because Working counts a sub-collection); and the
spec's concrete example yields Working = 2, Under Repair = 1. -/
theorem c5_pie_counts :
    (∀ inv : List Record,
      pieWorking inv ≤ inv.length ∧
      pieUnder inv = (inv.length : Int) - (pieWorking inv : Int)) ∧
    pieWorking [[("Condition", Value.vstr "Working")],
      [("Condition", Value.vstr "under repair")],
      [("Condition", Value.vstr "WORKING")]] = 2 ∧
    pieUnder [[("Condition", Value.vstr "Working")],
      [("Condition", Value.vstr "under repair")],
      [("Condition", Value.vstr "WORKING")]] = 1 := by
  refine ⟨fun inv => ⟨List.length_filter_le _ _, ?_⟩, by decide, by decide⟩
  have hle : (pieWorking inv : Int) ≤ (inv.length : Int) := by
    exact_mod_cast List.length_filter_le conditionMatches inv
  rw [pieUnder, max_eq_right (by omega)]

/-! ### Cell-value selection in the table renderers (sw.js:212, 254) -/

/-- The value rendered in a table cell: `r[h] || r[h.toLowerCase()] || ''`
(sw.js:212 and 254). -/
def cellValue (r : Record) (h : String) : Value :=
  jsOr (jsOr (getProp r h) (getProp r (jsToLower h))) (.vstr "")

/-- Removing every property named `k` from a record. -/
def eraseKey (k : String) : Record → Record
  | [] => []
  | (k2, v) :: r => if k2 = k then eraseKey k r else (k2, v) :: eraseKey k r

theorem jsOr_pos {a : Value} (b : Value) (h : truthy a = true) : jsOr a b = a := by
  rw [jsOr, if_pos h]

theorem jsOr_neg {a : Value} (b : Value) (h : truthy a = false) : jsOr a b = b := by
  rw [jsOr, if_neg (by simp [h])]

theorem getVal_eraseKey_self (k : String) (r : Record) :
    getVal k (eraseKey k r) = none := by
  induction r with
  | nil => rfl
  | cons p r ih =>
    obtain ⟨k2, v2⟩ := p
    by_cases h : k2 = k
    · rw [eraseKey, if_pos h, ih]
    · rw [eraseKey, if_neg h, getVal, if_neg h, ih]

theorem getVal_eraseKey_other (k k2 : String) (r : Record) (hne : k2 ≠ k) :
    getVal k2 (eraseKey k r) = getVal k2 r := by
  induction r with
  | nil => rfl
  | cons p r ih =>
    obtain ⟨k3, v3⟩ := p
    by_cases h : k3 = k
    · subst h
      have h2 : ¬ (k3 = k2) := fun he => hne he.symm
      rw [eraseKey, if_pos rfl, ih, getVal, if_neg h2]
    · rw [eraseKey, if_neg h, getVal, getVal]
      by_cases h2 : k3 = k2
      · rw [if_pos h2, if_pos h2]
      · rw [if_neg h2, if_neg h2, ih]

/-- C9: the renderer's cell value is `r[h]` when truthy, else the value at the
lower-cased key when truthy, else the empty string; and a record holding a
falsy value at `h` renders exactly like one with the property removed. -/
theorem c9_cell_fallback (r : Record) (h : String) :
    (truthy (getProp r h) = true → cellValue r h = getProp r h) ∧
    (truthy (getProp r h) = false → truthy (getProp r (jsToLower h)) = true →
      cellValue r h = getProp r (jsToLower h)) ∧
    (truthy (getProp r h) = false → truthy (getProp r (jsToLower h)) = false →
      cellValue r h = .vstr "") ∧
    (truthy (getProp r h) = false →
      cellValue r h = cellValue (eraseKey h r) h) := by
  refine ⟨?_, ?_, ?_, ?_⟩
  · intro ht
    rw [cellValue, jsOr_pos _ ht, jsOr_pos _ ht]
  · intro hf ht
    rw [cellValue, jsOr_neg _ hf, jsOr_pos _ ht]
  · intro hf1 hf2
    rw [cellValue, jsOr_neg _ hf1, jsOr_neg _ hf2]
  · intro hf
    have he1 : getProp (eraseKey h r) h = .vundefined := by
      rw [getProp, getVal_eraseKey_self]
      rfl
    by_cases hcase : jsToLower h = h
    · have hb : getProp r (jsToLower h) = getProp r h := by rw [hcase]
      have he2 : getProp (eraseKey h r) (jsToLower h) = .vundefined := by
        rw [hcase, he1]
      have hu : truthy Value.vundefined = false := rfl
      rw [cellValue, cellValue, he1, he2, hb, jsOr_neg _ hf, jsOr_neg _ hf,
        jsOr_neg _ hu, jsOr_neg _ hu]
    · have hb : getProp (eraseKey h r) (jsToLower h) = getProp r (jsToLower h) := by
        rw [getProp, getProp, getVal_eraseKey_other _ _ _ hcase]
      have hu : truthy Value.vundefined = false := rfl
      rw [cellValue, cellValue, he1, hb, jsOr_neg _ hf, jsOr_neg _ hu]

/-- C9 witness: an empty-string value at the canonical key falls back to the
lower-cased key, and a falsy value renders like a missing property. -/
theorem c9_cell_fallback_witness :
    cellValue [("RAM", Value.vstr ""), ("ram", Value.vstr "8GB")] "RAM" = Value.vstr "8GB" ∧
    cellValue [("Notes", Value.vstr "")] "Notes" =
      cellValue (eraseKey "Notes" [("Notes", Value.vstr "")]) "Notes" := by
  constructor
  · exact (c9_cell_fallback [("RAM", Value.vstr ""), ("ram", Value.vstr "8GB")] "RAM").2.1
      (by decide) (by decide)
  · exact (c9_cell_fallback [("Notes", Value.vstr "")] "Notes").2.2.2 (by decide)

/-! ### HTML escaping and cell rendering (sw.js:209-217, 251-258, 356) -/

/-- The per-character action of `escapeHtml`'s regex replace
`replace(/[&<>"']/g, ...)` (sw.js:356). -/
def escCharHtml (c : Char) : List Char :=
  if c = '&' then "&amp;".data
  else if c = '<' then "&lt;".data
  else if c = '>' then "&gt;".data
  else if c = '"' then "&quot;".data
  else if c = '\'' then "&#39;".data
  else [c]

/-- `escapeHtml` (sw.js:356): `String(s||'')` with the five special
characters replaced by entities. -/
def escapeHtml (v : Value) : String :=
  ⟨((jsToString (jsOr v (.vstr ""))).data.map escCharHtml).flatten⟩

/-- One table cell of the inventory / repairs renderers (sw.js:211-215 and
253-257): a raw hyperlink for a truthy Invoice Link value, an escaped text
cell otherwise. -/
def renderCell (r : Record) (h : String) : String :=
  let v := cellValue r h
  if h = "Invoice Link" ∧ truthy v = true then
    "<td><a href=\"" ++ jsToString v ++ "\" target=\"_blank\">Invoice</a></td>"
  else "<td>" ++ escapeHtml v ++ "</td>"

/-- One table cell of the consumables / issued renderers (sw.js:284-287 and
329-331): always escaped. -/
def renderCellPlain (r : Record) (h : String) : String :=
  "<td>" ++ escapeHtml (cellValue r h) ++ "</td>"

theorem escCharHtml_no_specials (c0 : Char) :
    ∀ c ∈ escCharHtml c0, c ≠ '<' ∧ c ≠ '>' ∧ c ≠ '"' ∧ c ≠ '\'' := by
  intro c hc
  rw [escCharHtml] at hc
  split_ifs at hc with h1 h2 h3 h4 h5
  · exact (by decide : ∀ x ∈ "&amp;".data, x ≠ '<' ∧ x ≠ '>' ∧ x ≠ '"' ∧ x ≠ '\'') c hc
  · exact (by decide : ∀ x ∈ "&lt;".data, x ≠ '<' ∧ x ≠ '>' ∧ x ≠ '"' ∧ x ≠ '\'') c hc
  · exact (by decide : ∀ x ∈ "&gt;".data, x ≠ '<' ∧ x ≠ '>' ∧ x ≠ '"' ∧ x ≠ '\'') c hc
  · exact (by decide : ∀ x ∈ "&quot;".data, x ≠ '<' ∧ x ≠ '>' ∧ x ≠ '"' ∧ x ≠ '\'') c hc
  · exact (by decide : ∀ x ∈ "&#39;".data, x ≠ '<' ∧ x ≠ '>' ∧ x ≠ '"' ∧ x ≠ '\'') c hc
  · rcases List.mem_singleton.mp hc with rfl
    exact ⟨h2, h3, h4, h5⟩

/-- C7: every cell of every renderer is the HTML-escaped string form of its
value — with the single exception of a truthy Invoice Link value, inserted
raw as a hyperlink target — and escaped output contains no raw
`<`, `>`, `"` or `'`. -/
theorem c7_cells_escaped (r : Record) (h : String) :
    (h ≠ "Invoice Link" → renderCell r h = "<td>" ++ escapeHtml (cellValue r h) ++ "</td>") ∧
    (truthy (cellValue r h) = false →
      renderCell r h = "<td>" ++ escapeHtml (cellValue r h) ++ "</td>") ∧
    (h = "Invoice Link" → truthy (cellValue r h) = true →
      renderCell r h =
        "<td><a href=\"" ++ jsToString (cellValue r h) ++ "\" target=\"_blank\">Invoice</a></td>") ∧
    (renderCellPlain r h = "<td>" ++ escapeHtml (cellValue r h) ++ "</td>") ∧
    (∀ c ∈ (escapeHtml (cellValue r h)).data, c ≠ '<' ∧ c ≠ '>' ∧ c ≠ '"' ∧ c ≠ '\'') := by
  refine ⟨?_, ?_, ?_, rfl, ?_⟩
  · intro hne
    rw [renderCell, if_neg (by intro hcon; exact hne hcon.1)]
  · intro hf
    rw [renderCell, if_neg (by intro hcon; rw [hf] at hcon; exact Bool.false_ne_true hcon.2)]
  · intro he ht
    rw [renderCell, if_pos ⟨he, ht⟩]
  · intro c hc
    have hc2 : c ∈ ((jsToString (jsOr (cellValue r h) (.vstr ""))).data.map escCharHtml).flatten := hc
    obtain ⟨blk, hblk, hcblk⟩ := List.mem_flatten.mp hc2
    obtain ⟨c0, _, hc0⟩ := List.mem_map.mp hblk
    exact escCharHtml_no_specials c0 c (hc0 ▸ hcblk)

/-- C7 witness: a value full of HTML metacharacters renders fully escaped,
and a truthy Invoice Link value is inserted raw. -/
theorem c7_cells_escaped_witness :
    renderCell [("Notes", Value.vstr "<b>&\"x\"</b>")] "Notes" =
      "<td>&lt;b&gt;&amp;&quot;x&quot;&lt;/b&gt;</td>" ∧
    renderCell [("Invoice Link", Value.vstr "https://x/y.pdf")] "Invoice Link" =
      "<td><a href=\"https://x/y.pdf\" target=\"_blank\">Invoice</a></td>" := by
  constructor
  · have h := (c7_cells_escaped [("Notes", Value.vstr "<b>&\"x\"</b>")] "Notes").1 (by decide)
    rw [h]
    decide
  · have h := (c7_cells_escaped [("Invoice Link", Value.vstr "https://x/y.pdf")]
      "Invoice Link").2.2.1 rfl (by decide)
    rw [h]
    decide

/-! ### Form submission handlers (sw.js:159-176, 224-239, 309-320) -/

/-- A file selected in a file input: its name, MIME type, and the base64
body that `fileToBase64` would produce for it. -/
structure FileUpload where
  name : String
  mime : String
  b64 : String
deriving DecidableEq

/-- The invoice part of a POST payload: `{name, b64}` (sw.js:171, 234). -/
structure InvoicePart where
  name : String
  b64 : String
deriving DecidableEq

/-- A POST command payload `{action, data, invoice}`. -/
structure Payload where
  action : String
  data : Record
  invoice : Option InvoicePart
deriving DecidableEq

/-- What a submit handler does up to (and including) the decision whether to
call `apiPost`: either it alerts and returns before any network call, or it
issues exactly the given POST. -/
inductive HandlerResult where
  | alerted : String → HandlerResult
  | posted : Payload → HandlerResult
deriving DecidableEq

/-- The POSTs a handler run issues. -/
def postsOf : HandlerResult → List Payload
  | .alerted _ => []
  | .posted p => [p]

/-- The add-inventory submit handler (sw.js:159-176) up to the POST: reject a
non-PDF attachment, otherwise post `{action:'addInventory', data, invoice}`. -/
def addInventoryOutcome (obj : Record) (file : Option FileUpload) : HandlerResult :=
  match file with
  | some f =>
    if f.mime ≠ "application/pdf" then .alerted "Only PDF invoices allowed"
    else .posted ⟨"addInventory", obj, some ⟨f.name, f.b64⟩⟩
  | none => .posted ⟨"addInventory", obj, none⟩

/-- The add-repair submit handler (sw.js:224-239) up to the POST. -/
def addRepairOutcome (obj : Record) (file : Option FileUpload) : HandlerResult :=
  match file with
  | some f =>
    if f.mime ≠ "application/pdf" then .alerted "Only PDF invoices allowed"
    else .posted ⟨"addRepair", obj, some ⟨f.name, f.b64⟩⟩
  | none => .posted ⟨"addRepair", obj, none⟩

/-- Digit-string accumulator for `parseJsNumber`. -/
def digitsValAux (acc : Nat) : List Char → Option Nat
  | [] => some acc
  | c :: rest =>
    if c.isDigit then digitsValAux (acc * 10 + (c.toNat - 48)) rest else none

/-- JavaScript `Number()` on a string, for the fragment this program's
properties exercise: the trimmed string must be empty (0) or an optionally
negated decimal integer literal; anything else is mapped to NaN.  (Fractional
or exotic numeric literals are outside this model.) -/
def parseJsNumber (s : String) : JsNum :=
  match (jsTrim s).data with
  | [] => .int 0
  | c :: rest =>
    if c = '-' then
      match rest with
      | [] => .nan
      | _ :: _ =>
        match digitsValAux 0 rest with
        | some n => .int (-(n : Int))
        | none => .nan
    else
      match digitsValAux 0 (c :: rest) with
      | some n => .int (n : Int)
      | none => .nan

/-- JavaScript `Number()` coercion on our value space. -/
def jsNumberValue : Value → JsNum
  | .vnum j => j
  | .vbool b => .int (if b then 1 else 0)
  | .vnull => .int 0
  | .vundefined => .nan
  | .vstr s => parseJsNumber s

/-- JavaScript `x <= 0`: false when `x` is NaN. -/
def jsLe0 : JsNum → Bool
  | .nan => false
  | .int n => n ≤ 0

/-- `Number(obj.qty || 0)` (sw.js:313). -/
def issueQty (obj : Record) : JsNum :=
  jsNumberValue (jsOr (getProp obj "qty") (.vnum (.int 0)))

/-- The issue-consumable submit handler (sw.js:309-320) up to the POST:
`obj.qty = Number(obj.qty || 0)`, reject `obj.qty <= 0`, otherwise post
`{action:'issueConsumable', data: obj}`. -/
def issueOutcome (obj : Record) : HandlerResult :=
  if jsLe0 (issueQty obj) then .alerted "Invalid quantity"
  else .posted ⟨"issueConsumable", objInsert "qty" (.vnum (issueQty obj)) obj, none⟩

/-- C4: a non-PDF attachment on the add-inventory or add-repair form, or an
issue quantity that coerces to zero or a negative number, raises an alert
and issues no POST. -/
theorem c4_validation_aborts :
    (∀ (obj : Record) (f : FileUpload), f.mime ≠ "application/pdf" →
      addInventoryOutcome obj (some f) = .alerted "Only PDF invoices allowed" ∧
      postsOf (addInventoryOutcome obj (some f)) = []) ∧
    (∀ (obj : Record) (f : FileUpload), f.mime ≠ "application/pdf" →
      addRepairOutcome obj (some f) = .alerted "Only PDF invoices allowed" ∧
      postsOf (addRepairOutcome obj (some f)) = []) ∧
    (∀ (obj : Record) (n : Int),
      issueQty obj = .int n → n ≤ 0 →
      issueOutcome obj = .alerted "Invalid quantity" ∧
      postsOf (issueOutcome obj) = []) := by
  refine ⟨?_, ?_, ?_⟩
  · intro obj f hm
    rw [addInventoryOutcome, if_pos hm]
    exact ⟨rfl, rfl⟩
  · intro obj f hm
    rw [addRepairOutcome, if_pos hm]
    exact ⟨rfl, rfl⟩
  · intro obj n hq hn
    have hle : jsLe0 (issueQty obj) = true := by
      rw [hq]
      simpa [jsLe0] using hn
    rw [issueOutcome, if_pos hle]
    exact ⟨rfl, rfl⟩

/-- C4 witness: a PNG attachment and a zero quantity are both rejected
before any POST. -/
theorem c4_validation_aborts_witness :
    addInventoryOutcome [] (some ⟨"inv.png", "image/png", "QUJD"⟩) =
      .alerted "Only PDF invoices allowed" ∧
    issueOutcome [("qty", Value.vstr "0")] = .alerted "Invalid quantity" := by
  constructor
  · exact (c4_validation_aborts.1 [] ⟨"inv.png", "image/png", "QUJD"⟩ (by decide)).1
  · exact (c4_validation_aborts.2.2 [("qty", Value.vstr "0")] 0 (by decide) (by decide)).1

/-- C10: a quantity string whose `Number()` coercion is NaN slips past the
non-positive check — the handler posts the command with `qty` equal to NaN
instead of alerting. -/
theorem c10_nan_qty_submits (obj : Record) (h : issueQty obj = .nan) :
    issueOutcome obj =
      .posted ⟨"issueConsumable", objInsert "qty" (.vnum .nan) obj, none⟩ ∧
    postsOf (issueOutcome obj) =
      [⟨"issueConsumable", objInsert "qty" (.vnum .nan) obj, none⟩] := by
  have hle : jsLe0 (issueQty obj) = false := by rw [h]; rfl
  rw [issueOutcome, if_neg (by simp [hle]), h]
  exact ⟨rfl, rfl⟩

/-- C10 witness: `qty = "abc"` coerces to NaN and is posted, not rejected. -/
theorem c10_nan_qty_submits_witness :
    issueOutcome [("qty", Value.vstr "abc")] =
      .posted ⟨"issueConsumable", [("qty", Value.vnum .nan)], none⟩ := by
  have h := c10_nan_qty_submits [("qty", Value.vstr "abc")] (by decide)
  rw [h.1]
  decide

/-! ### Bar chart (drawCharts, sw.js:144-153) -/

/-- The grouping key of a repairs record:
`r['System Number'] || r['systemNumber'] || 'Unknown'`, coerced to a string
when used as an object key (sw.js:146). -/
def sysKey (r : Record) : String :=
  jsToString (jsOr (jsOr (getProp r "System Number") (getProp r "systemNumber"))
    (.vstr "Unknown"))

/-- `counts[s] = (counts[s]||0)+1` on an insertion-ordered counts object. -/
def bumpCount : List (String × Nat) → String → List (String × Nat)
  | [], s => [(s, 1)]
  | (k, n) :: rest, s =>
    if k = s then (k, n + 1) :: rest else (k, n) :: bumpCount rest s

/-- The `counts` object after the `repairsData.forEach` loop (sw.js:145-146). -/
def repairCounts (data : List Record) : List (String × Nat) :=
  data.foldl (fun m r => bumpCount m (sysKey r)) []

/-- Stable descending insertion by count: the comparator
`(a,b) => counts[b]-counts[a]` of sw.js:148, with ties kept in key
(= first-occurrence) order. -/
def insertCountDesc (x : String × Nat) : List (String × Nat) → List (String × Nat)
  | [] => [x]
  | y :: ys => if y.2 ≤ x.2 then x :: y :: ys else y :: insertCountDesc x ys

/-- Sorting the groups by descending count (sw.js:148). -/
def sortCountsDesc : List (String × Nat) → List (String × Nat)
  | [] => []
  | x :: xs => insertCountDesc x (sortCountsDesc xs)

/-- The bar chart's data rows (below the header row): sorted groups, first
10, with the `['None', 0]` placeholder when no group exists (sw.js:147-149). -/
def barRows (data : List Record) : List (String × Nat) :=
  if (sortCountsDesc (repairCounts data)).take 10 = [] then [("None", 0)]
  else (sortCountsDesc (repairCounts data)).take 10

/-- How many records of `data` group under key `k`. -/
def countKey (data : List Record) (k : String) : Nat :=
  (data.filter (fun r => decide (sysKey r = k))).length

/-- Count lookup in the counts object. -/
def lookupCount (k : String) : List (String × Nat) → Option Nat
  | [] => none
  | (k2, n) :: m => if k2 = k then some n else lookupCount k m

theorem lookupCount_bumpCount (m : List (String × Nat)) (s k : String) :
    lookupCount k (bumpCount m s) =
      if k = s then some ((lookupCount k m).getD 0 + 1) else lookupCount k m := by
  induction m with
  | nil =>
    by_cases h : k = s
    · subst h
      simp [bumpCount, lookupCount]
    · have h2 : ¬ (s = k) := fun he => h he.symm
      simp [bumpCount, lookupCount, h, h2]
  | cons p m ih =>
    obtain ⟨k2, n⟩ := p
    by_cases h2 : k2 = s
    · subst h2
      by_cases h : k = k2
      · subst h
        simp [bumpCount, lookupCount]
      · have h3 : ¬ (k2 = k) := fun he => h he.symm
        simp [bumpCount, lookupCount, h, h3]
    · by_cases h : k2 = k
      · subst h
        simp [bumpCount, lookupCount, h2]
      · have h3 : ¬ (k2 = k) := h
        simp [bumpCount, lookupCount, h2, h3, ih]

theorem keys_bumpCount (m : List (String × Nat)) (s : String) :
    (bumpCount m s).map Prod.fst =
      if s ∈ m.map Prod.fst then m.map Prod.fst else m.map Prod.fst ++ [s] := by
  induction m with
  | nil => simp [bumpCount]
  | cons p m ih =>
    obtain ⟨k2, n⟩ := p
    by_cases h2 : k2 = s
    · subst h2
      simp [bumpCount]
    · have hmem : (s ∈ k2 :: m.map Prod.fst) ↔ s ∈ m.map Prod.fst := by
        constructor
        · intro hm
          rcases List.mem_cons.mp hm with h1 | h1
          · exact absurd h1.symm h2
          · exact h1
        · exact fun hm => List.mem_cons_of_mem _ hm
      by_cases hm : s ∈ m.map Prod.fst
      · simp [bumpCount, h2, ih, hm, hmem]
      · simp [bumpCount, h2, ih, hm, hmem]

theorem nodup_keys_bumpCount (m : List (String × Nat)) (s : String)
    (hnd : (m.map Prod.fst).Nodup) : ((bumpCount m s).map Prod.fst).Nodup := by
  rw [keys_bumpCount]
  by_cases hm : s ∈ m.map Prod.fst
  · rwa [if_pos hm]
  · rw [if_neg hm]
    exact List.Nodup.append hnd (List.nodup_singleton s)
      (by simpa [List.disjoint_singleton] using hm)

theorem bumpCount_ne_nil (m : List (String × Nat)) (s : String) :
    bumpCount m s ≠ [] := by
  cases m with
  | nil => simp [bumpCount]
  | cons p m =>
    obtain ⟨k2, n⟩ := p
    by_cases h : k2 = s
    · simp [bumpCount, h]
    · simp [bumpCount, h]

theorem lookupCount_foldl (data : List Record) :
    ∀ (m : List (String × Nat)) (k : String),
    (lookupCount k (data.foldl (fun m r => bumpCount m (sysKey r)) m)).getD 0 =
      (lookupCount k m).getD 0 + countKey data k := by
  induction data with
  | nil => intro m k; simp [countKey]
  | cons r data ih =>
    intro m k
    rw [List.foldl_cons, ih]
    have hck : countKey (r :: data) k =
        (if sysKey r = k then 1 else 0) + countKey data k := by
      rw [countKey, countKey, List.filter_cons]
      by_cases h : sysKey r = k
      · simp [h]
        omega
      · simp [h]
    rw [hck, lookupCount_bumpCount]
    by_cases h : k = sysKey r
    · rw [if_pos h, if_pos h.symm]
      simp only [Option.getD_some]
      omega
    · have h4 : ¬ (sysKey r = k) := fun he => h he.symm
      rw [if_neg h, if_neg h4]
      omega

theorem nodup_keys_foldl (data : List Record) :
    ∀ m : List (String × Nat), (m.map Prod.fst).Nodup →
    ((data.foldl (fun m r => bumpCount m (sysKey r)) m).map Prod.fst).Nodup := by
  induction data with
  | nil => intro m h; exact h
  | cons r data ih =>
    intro m h
    rw [List.foldl_cons]
    exact ih _ (nodup_keys_bumpCount m (sysKey r) h)

theorem foldl_bump_ne_nil (data : List Record) :
    ∀ m : List (String × Nat), m ≠ [] →
    data.foldl (fun m r => bumpCount m (sysKey r)) m ≠ [] := by
  induction data with
  | nil => intro m h; exact h
  | cons r data ih =>
    intro m _
    rw [List.foldl_cons]
    exact ih _ (bumpCount_ne_nil m (sysKey r))

theorem repairCounts_lookup (data : List Record) (k : String) :
    (lookupCount k (repairCounts data)).getD 0 = countKey data k := by
  have := lookupCount_foldl data [] k
  simpa [repairCounts, lookupCount] using this

theorem repairCounts_nodup_keys (data : List Record) :
    ((repairCounts data).map Prod.fst).Nodup :=
  nodup_keys_foldl data [] (by simp)

theorem repairCounts_ne_nil (data : List Record) (h : data ≠ []) :
    repairCounts data ≠ [] := by
  match data, h with
  | r :: data, _ =>
    rw [repairCounts, List.foldl_cons]
    exact foldl_bump_ne_nil data _ (bumpCount_ne_nil [] (sysKey r))

theorem lookupCount_mem (k : String) (c : Nat) :
    ∀ m : List (String × Nat), lookupCount k m = some c → (k, c) ∈ m := by
  intro m
  induction m with
  | nil => intro h; exact absurd h (by simp [lookupCount])
  | cons p m ih =>
    obtain ⟨k2, n⟩ := p
    intro h
    rw [lookupCount] at h
    by_cases h2 : k2 = k
    · rw [if_pos h2] at h
      obtain rfl := Option.some.inj h
      rw [h2]
      exact List.mem_cons_self _ _
    · rw [if_neg h2] at h
      exact List.mem_cons_of_mem _ (ih h)

theorem mem_lookupCount (m : List (String × Nat)) (hnd : (m.map Prod.fst).Nodup)
    (k : String) (c : Nat) (h : (k, c) ∈ m) : lookupCount k m = some c := by
  induction m with
  | nil => exact absurd h (List.not_mem_nil _)
  | cons p m ih =>
    obtain ⟨k2, n⟩ := p
    rcases List.mem_cons.mp h with h1 | h1
    · obtain ⟨rfl, rfl⟩ := Prod.mk.injEq .. ▸ h1
      · rw [lookupCount, if_pos rfl]
    · have hk2 : k2 ≠ k := by
        intro he
        subst he
        exact (List.nodup_cons.mp hnd).1 (List.mem_map.mpr ⟨(k2, c), h1, rfl⟩)
      rw [lookupCount, if_neg hk2]
      exact ih (List.nodup_cons.mp hnd).2 h1

theorem mem_insertCountDesc (x y : String × Nat) (l : List (String × Nat)) :
    y ∈ insertCountDesc x l ↔ y = x ∨ y ∈ l := by
  induction l with
  | nil => simp [insertCountDesc]
  | cons z l ih =>
    rw [insertCountDesc]
    by_cases h : z.2 ≤ x.2
    · rw [if_pos h]
      simp [List.mem_cons]
    · rw [if_neg h]
      simp only [List.mem_cons, ih]
      tauto

theorem mem_sortCountsDesc (y : (String × Nat)) (l : List (String × Nat)) :
    y ∈ sortCountsDesc l ↔ y ∈ l := by
  induction l with
  | nil => simp [sortCountsDesc]
  | cons x l ih =>
    rw [sortCountsDesc, mem_insertCountDesc, ih, List.mem_cons]

theorem pairwise_insertCountDesc (x : String × Nat) (l : List (String × Nat))
    (h : l.Pairwise (fun a b => b.2 ≤ a.2)) :
    (insertCountDesc x l).Pairwise (fun a b => b.2 ≤ a.2) := by
  induction l with
  | nil => simp [insertCountDesc]
  | cons y l ih =>
    rw [insertCountDesc]
    by_cases hle : y.2 ≤ x.2
    · rw [if_pos hle]
      refine List.Pairwise.cons ?_ h
      intro z hz
      rcases List.mem_cons.mp hz with rfl | hz2
      · exact hle
      · exact le_trans ((List.pairwise_cons.mp h).1 z hz2) hle
    · rw [if_neg hle]
      refine List.Pairwise.cons ?_ (ih (List.pairwise_cons.mp h).2)
      intro z hz
      rcases (mem_insertCountDesc x z l).mp hz with rfl | hz2
      · exact le_of_not_le hle
      · exact (List.pairwise_cons.mp h).1 z hz2

theorem pairwise_sortCountsDesc (l : List (String × Nat)) :
    (sortCountsDesc l).Pairwise (fun a b => b.2 ≤ a.2) := by
  induction l with
  | nil => exact List.Pairwise.nil
  | cons x l ih => exact pairwise_insertCountDesc x _ ih

theorem length_insertCountDesc (x : String × Nat) (l : List (String × Nat)) :
    (insertCountDesc x l).length = l.length + 1 := by
  induction l with
  | nil => rfl
  | cons y l ih =>
    rw [insertCountDesc]
    by_cases h : y.2 ≤ x.2
    · rw [if_pos h]
      rfl
    · rw [if_neg h, List.length_cons, ih, List.length_cons]

theorem length_sortCountsDesc (l : List (String × Nat)) :
    (sortCountsDesc l).length = l.length := by
  induction l with
  | nil => rfl
  | cons x l ih => rw [sortCountsDesc, length_insertCountDesc, ih, List.length_cons]

/-- C6: the bar rows are sorted descending by count, at most 10, each row's
count is the number of repairs records grouping under its key (with the
`System Number` / `systemNumber` / `"Unknown"` fallback), every key that
occurs reaches the sorted group list, the empty dataset yields the
`("None", 0)` placeholder, and the spec's three-record example produces
`[("A", 2), ("B", 1)]`. -/
theorem c6_bar_chart :
    (∀ data : List Record, (barRows data).Pairwise (fun a b => b.2 ≤ a.2)) ∧
    (∀ data : List Record, (barRows data).length ≤ 10) ∧
    barRows [] = [("None", 0)] ∧
    (∀ (data : List Record) (p : String × Nat), p ∈ barRows data →
      p.2 = countKey data p.1) ∧
    (∀ (data : List Record) (k : String), 0 < countKey data k →
      (k, countKey data k) ∈ sortCountsDesc (repairCounts data)) ∧
    barRows [[("System Number", Value.vstr "A")], [("System Number", Value.vstr "A")],
      [("System Number", Value.vstr "B")]] = [("A", 2), ("B", 1)] := by
  have hmemcount : ∀ (data : List Record) (p : String × Nat),
      p ∈ repairCounts data → p.2 = countKey data p.1 := by
    intro data p hp
    obtain ⟨k, c⟩ := p
    have hl : lookupCount k (repairCounts data) = some c :=
      mem_lookupCount _ (repairCounts_nodup_keys data) k c hp
    have hg := repairCounts_lookup data k
    rw [hl] at hg
    simpa using hg
  refine ⟨?_, ?_, by decide, ?_, ?_, by decide⟩
  · intro data
    rw [barRows]
    by_cases h : (sortCountsDesc (repairCounts data)).take 10 = []
    · rw [if_pos h]
      simp
    · rw [if_neg h]
      exact (pairwise_sortCountsDesc _).sublist (List.take_sublist _ _)
  · intro data
    rw [barRows]
    by_cases h : (sortCountsDesc (repairCounts data)).take 10 = []
    · rw [if_pos h]
      simp
    · rw [if_neg h]
      exact le_trans (List.length_take_le _ _) (le_refl 10)
  · intro data p hp
    rw [barRows] at hp
    by_cases h : (sortCountsDesc (repairCounts data)).take 10 = []
    · rw [if_pos h] at hp
      obtain rfl := List.mem_singleton.mp hp
      have hsorted : sortCountsDesc (repairCounts data) = [] := by
        rcases List.take_eq_nil_iff.mp h with h10 | hl
        · exact absurd h10 (by omega)
        · exact hl
      have hcounts : repairCounts data = [] := by
        have hlen := length_sortCountsDesc (repairCounts data)
        rw [hsorted] at hlen
        exact List.length_eq_zero.mp hlen.symm
      have hdata : data = [] := by
        by_contra hne
        exact repairCounts_ne_nil data hne hcounts
      subst hdata
      rfl
    · rw [if_neg h] at hp
      have hp2 : p ∈ sortCountsDesc (repairCounts data) :=
        List.take_subset _ _ hp
      exact hmemcount data p ((mem_sortCountsDesc _ _).mp hp2)
  · intro data k hk
    have hl : lookupCount k (repairCounts data) = some (countKey data k) := by
      have hgd := repairCounts_lookup data k
      cases hcase : lookupCount k (repairCounts data) with
      | none =>
        rw [hcase] at hgd
        simp at hgd
        omega
      | some c =>
        rw [hcase] at hgd
        simp at hgd
        rw [hgd]
    exact (mem_sortCountsDesc _ _).mpr (lookupCount_mem k _ _ hl)

/-- C6 witness: the counts reported for the example dataset really are the
group sizes, and a key that occurs reaches the sorted group list. -/
theorem c6_bar_chart_witness :
    2 = countKey [[("System Number", Value.vstr "A")], [("System Number", Value.vstr "A")],
      [("System Number", Value.vstr "B")]] "A" ∧
    ("B", countKey [[("System Number", Value.vstr "A")], [("System Number", Value.vstr "A")],
      [("System Number", Value.vstr "B")]] "B") ∈
      sortCountsDesc (repairCounts [[("System Number", Value.vstr "A")],
        [("System Number", Value.vstr "A")], [("System Number", Value.vstr "B")]]) := by
  constructor
  · exact c6_bar_chart.2.2.2.1 _ ("A", 2) (by decide)
  · exact c6_bar_chart.2.2.2.2.1 _ "B" (by decide)

/-! ### CSV export (downloadCsvFromArray, sw.js:345-353) and its re-parse -/

/-- The regex replace `replace(/"/g,'""')` of sw.js:348: double every
double-quote character. -/
def escQ : List Char → List Char
  | [] => []
  | c :: rest => if c = '"' then '"' :: '"' :: escQ rest else c :: escQ rest

/-- `String(r[h]||'')` (sw.js:348). -/
def jsFieldStr (r : Record) (h : String) : String :=
  jsToString (jsOr (getProp r h) (.vstr ""))

/-- One exported field: quotes doubled, the whole field wrapped in double
quotes (sw.js:348). -/
def quoteF (v : List Char) : List Char := '"' :: (escQ v ++ ['"'])

/-- `Array.prototype.join(sep)` at the character level. -/
def interChars (c : Char) : List (List Char) → List Char
  | [] => []
  | [l] => l
  | l :: l2 :: ls => l ++ c :: interChars c (l2 :: ls)

/-- The character stream of the exported CSV (sw.js:347-348): the first
record's keys joined by commas, then one line per record of quoted fields,
lines joined by newlines. -/
def csvChars : List Record → List Char
  | [] => []
  | r0 :: rs =>
    interChars '\n'
      (interChars ',' ((keys r0).map String.data) ::
        (r0 :: rs).map (fun r => interChars ',' ((keys r0).map (fun h => quoteF (jsFieldStr r h).data))))

/-- `downloadCsvFromArray` (sw.js:345-353) up to the blob download: `none`
models the `alert('No data')` early return on an empty collection. -/
def downloadCsvFromArray : List Record → Option String
  | [] => none
  | r0 :: rs => some ⟨csvChars (r0 :: rs)⟩

/-- Modelled from the spec: the client-side CSV parsing contract (PapaParse,
sw.js:184, "client-side CSV parsing (PapaParse)" / "a standard CSV-parsing
contract: header row detected, empty lines skipped").  One-character-at-a-time
state machine over the text: a comma ends a field, a newline ends a row, a
double quote toggles quoted mode in which `""` denotes a literal quote;
`cur`/`row`/`rows` accumulate the current field, the current row's fields and
the finished rows. -/
def csvGo (b : Bool) (l : List Char) (cur : List Char) (row : List (List Char))
    (rows : List (List (List Char))) : List (List (List Char)) :=
  match l, b with
  | [], _ => rows ++ [row ++ [cur]]
  | c :: cs, false =>
    if c = ',' then csvGo false cs [] (row ++ [cur]) rows
    else if c = '\n' then csvGo false cs [] [] (rows ++ [row ++ [cur]])
    else if c = '"' then csvGo true cs cur row rows
    else csvGo false cs (cur ++ [c]) row rows
  | c :: cs, true =>
    if c = '"' then
      match cs with
      | [] => rows ++ [row ++ [cur]]
      | c2 :: cs2 =>
        if c2 = '"' then csvGo true cs2 (cur ++ ['"']) row rows
        else csvGo false (c2 :: cs2) cur row rows
    else csvGo true cs (cur ++ [c]) row rows

/-- Modelled from the spec: the parsed rows of a CSV text, with rows whose
only content is a single empty field skipped (PapaParse `skipEmptyLines`). -/
def papaRows (s : String) : List (List String) :=
  ((csvGo false s.data [] [] []).filter (fun row => decide (row ≠ [[]]))).map
    (fun row => row.map (fun l => (⟨l⟩ : String)))

/-- Modelled from the spec: PapaParse with `header:true` — the first parsed
row names the fields of the records built from the remaining rows. -/
def papaParseRecords (s : String) : List Record :=
  match papaRows s with
  | [] => []
  | hdr :: dataRows =>
    dataRows.map (fun row => (hdr.zip row).map (fun p => (p.1, Value.vstr p.2)))

/-! ### Single-step facts about the CSV state machine -/

theorem csvGo_nil (b : Bool) (cur : List Char) (row : List (List Char))
    (rows : List (List (List Char))) :
    csvGo b [] cur row rows = rows ++ [row ++ [cur]] := by
  cases b <;> rfl

theorem csvGo_comma (cs : List Char) (cur : List Char) (row : List (List Char))
    (rows : List (List (List Char))) :
    csvGo false (',' :: cs) cur row rows = csvGo false cs [] (row ++ [cur]) rows := rfl

theorem csvGo_newline (cs : List Char) (cur : List Char) (row : List (List Char))
    (rows : List (List (List Char))) :
    csvGo false ('\n' :: cs) cur row rows = csvGo false cs [] [] (rows ++ [row ++ [cur]]) := rfl

theorem csvGo_openq (cs : List Char) (cur : List Char) (row : List (List Char))
    (rows : List (List (List Char))) :
    csvGo false ('"' :: cs) cur row rows = csvGo true cs cur row rows := rfl

theorem csvGo_other (c : Char) (h1 : ¬c = ',') (h2 : ¬c = '\n') (h3 : ¬c = '"')
    (cs : List Char) (cur : List Char) (row : List (List Char))
    (rows : List (List (List Char))) :
    csvGo false (c :: cs) cur row rows = csvGo false cs (cur ++ [c]) row rows := by
  conv_lhs => rw [csvGo.eq_def]
  simp only [if_neg h1, if_neg h2, if_neg h3]

theorem csvGo_qq (cs : List Char) (cur : List Char) (row : List (List Char))
    (rows : List (List (List Char))) :
    csvGo true ('"' :: '"' :: cs) cur row rows = csvGo true cs (cur ++ ['"']) row rows := rfl

theorem csvGo_qclose (c2 : Char) (h : ¬c2 = '"') (cs2 : List Char) (cur : List Char)
    (row : List (List Char)) (rows : List (List (List Char))) :
    csvGo true ('"' :: c2 :: cs2) cur row rows = csvGo false (c2 :: cs2) cur row rows := by
  conv_lhs => rw [csvGo.eq_def]
  simp only [if_pos rfl, if_neg h]
  simp

theorem csvGo_qend (cur : List Char) (row : List (List Char))
    (rows : List (List (List Char))) :
    csvGo true ['"'] cur row rows = rows ++ [row ++ [cur]] := rfl

theorem csvGo_qchar (c : Char) (h : ¬c = '"') (cs : List Char) (cur : List Char)
    (row : List (List Char)) (rows : List (List (List Char))) :
    csvGo true (c :: cs) cur row rows = csvGo true cs (cur ++ [c]) row rows := by
  conv_lhs => rw [csvGo.eq_def]
  simp only [if_neg h]

/-- Characters with no special CSV meaning pass into the current field. -/
theorem csvGo_plain : ∀ l : List Char, (∀ c ∈ l, ¬c = ',' ∧ ¬c = '\n' ∧ ¬c = '"') →
    ∀ cs cur row rows, csvGo false (l ++ cs) cur row rows = csvGo false cs (cur ++ l) row rows := by
  intro l
  induction l with
  | nil =>
    intro _ cs cur row rows
    rw [List.nil_append, List.append_nil]
  | cons c l ih =>
    intro hok cs cur row rows
    obtain ⟨h1, h2, h3⟩ := hok c (List.mem_cons_self c l)
    rw [List.cons_append, csvGo_other c h1 h2 h3,
      ih (fun c hc => hok c (List.mem_cons_of_mem _ hc)) cs (cur ++ [c]) row rows,
      List.append_assoc, List.singleton_append]

/-- Inside quotes, a quote-escaped body followed by the closing quote lands
the body in the current field, provided no further quote follows at once. -/
theorem csvGo_quoted : ∀ v cs : List Char, (∀ cs2, cs ≠ '"' :: cs2) →
    ∀ cur row rows,
    csvGo true (escQ v ++ '"' :: cs) cur row rows = csvGo false cs (cur ++ v) row rows := by
  intro v
  induction v with
  | nil =>
    intro cs hcs cur row rows
    rw [escQ, List.nil_append, List.append_nil]
    cases cs with
    | nil => rw [csvGo_qend, csvGo_nil]
    | cons c2 cs2 =>
      have h : ¬ c2 = '"' := fun he => hcs cs2 (by rw [he])
      rw [csvGo_qclose c2 h]
  | cons c v ih =>
    intro cs hcs cur row rows
    by_cases hc : c = '"'
    · subst hc
      rw [escQ, if_pos rfl, List.cons_append, List.cons_append, csvGo_qq,
        ih cs hcs (cur ++ ['"']) row rows, List.append_assoc, List.singleton_append]
    · rw [escQ, if_neg hc, List.cons_append, csvGo_qchar c hc,
        ih cs hcs (cur ++ [c]) row rows, List.append_assoc, List.singleton_append]

/-- A whole quoted field is consumed into the current field. -/
theorem csvGo_qfield (v cs : List Char) (hcs : ∀ cs2, cs ≠ '"' :: cs2)
    (cur : List Char) (row : List (List Char)) (rows : List (List (List Char))) :
    csvGo false (quoteF v ++ cs) cur row rows = csvGo false cs (cur ++ v) row rows := by
  rw [quoteF, List.cons_append, List.append_assoc, List.singleton_append,
    csvGo_openq, csvGo_quoted v cs hcs cur row rows]

theorem interChars_cons (c : Char) (a : List Char) (ls : List (List Char)) (h : ls ≠ []) :
    interChars c (a :: ls) = a ++ c :: interChars c ls := by
  cases ls with
  | nil => exact absurd rfl h
  | cons b ls2 => rfl

theorem ne_quote_cons (c : Char) (hc : ¬c = '"') (cs : List Char) :
    ∀ cs2, (c :: cs) ≠ '"' :: cs2 := by
  intro cs2 h
  injection h with h1 _
  exact hc h1

theorem nil_ne_quote_cons : ∀ cs2, ([] : List Char) ≠ '"' :: cs2 :=
  fun _ h => List.noConfusion h

/-- One whole line of quoted fields followed by a newline becomes one
finished row. -/
theorem csvGo_dataline_nl : ∀ (fields : List (List Char)) (cs : List Char)
    (row : List (List Char)) (rows : List (List (List Char))), fields ≠ [] →
    csvGo false (interChars ',' (fields.map quoteF) ++ '\n' :: cs) [] row rows =
      csvGo false cs [] [] (rows ++ [row ++ fields]) := by
  intro fields
  induction fields with
  | nil => intro cs row rows h; exact absurd rfl h
  | cons v fields ih =>
    intro cs row rows _
    cases fields with
    | nil =>
      rw [List.map_cons, List.map_nil, interChars,
        csvGo_qfield v ('\n' :: cs) (ne_quote_cons '\n' (by decide) cs) [] row rows,
        List.nil_append, csvGo_newline]
    | cons v2 fields2 =>
      rw [List.map_cons, List.map_cons, interChars, List.append_assoc, List.cons_append,
        csvGo_qfield v _ (ne_quote_cons ',' (by decide) _) [] row rows,
        List.nil_append, csvGo_comma, ← List.map_cons,
        ih cs (row ++ [v]) rows (List.cons_ne_nil v2 fields2),
        List.append_assoc, List.singleton_append]

/-- One whole line of quoted fields at the end of the input becomes the last
finished row. -/
theorem csvGo_dataline_end : ∀ (fields : List (List Char)) (row : List (List Char))
    (rows : List (List (List Char))), fields ≠ [] →
    csvGo false (interChars ',' (fields.map quoteF)) [] row rows =
      rows ++ [row ++ fields] := by
  intro fields
  induction fields with
  | nil => intro row rows h; exact absurd rfl h
  | cons v fields ih =>
    intro row rows _
    cases fields with
    | nil =>
      rw [List.map_cons, List.map_nil, interChars, ← List.append_nil (quoteF v),
        csvGo_qfield v [] nil_ne_quote_cons [] row rows, List.nil_append, csvGo_nil]
    | cons v2 fields2 =>
      rw [List.map_cons, List.map_cons, interChars,
        csvGo_qfield v _ (ne_quote_cons ',' (by decide) _) [] row rows,
        List.nil_append, csvGo_comma, ← List.map_cons,
        ih (row ++ [v]) rows (List.cons_ne_nil v2 fields2),
        List.append_assoc, List.singleton_append]

/-- The unquoted header line followed by a newline becomes the first
finished row, provided no key character is special. -/
theorem csvGo_hdrline_nl : ∀ (ks : List (List Char)) (cs : List Char)
    (row : List (List Char)) (rows : List (List (List Char))), ks ≠ [] →
    (∀ k ∈ ks, ∀ c ∈ k, ¬c = ',' ∧ ¬c = '\n' ∧ ¬c = '"') →
    csvGo false (interChars ',' ks ++ '\n' :: cs) [] row rows =
      csvGo false cs [] [] (rows ++ [row ++ ks]) := by
  intro ks
  induction ks with
  | nil => intro cs row rows h; exact absurd rfl h
  | cons k ks ih =>
    intro cs row rows _ hok
    cases ks with
    | nil =>
      rw [interChars, csvGo_plain k (hok k (List.mem_cons_self k [])) ('\n' :: cs) [] row rows,
        List.nil_append, csvGo_newline]
    | cons k2 ks2 =>
      rw [interChars, List.append_assoc, List.cons_append,
        csvGo_plain k (hok k (List.mem_cons_self k _)) _ [] row rows,
        List.nil_append, csvGo_comma,
        ih cs (row ++ [k]) rows (List.cons_ne_nil k2 ks2)
          (fun k3 hk3 => hok k3 (List.mem_cons_of_mem _ hk3)),
        List.append_assoc, List.singleton_append]

/-- A whole block of quoted-field lines joined by newlines yields exactly
those rows. -/
theorem csvGo_alllines : ∀ (lines : List (List (List Char)))
    (rows : List (List (List Char))), lines ≠ [] → (∀ l ∈ lines, l ≠ []) →
    csvGo false
        (interChars '\n' (lines.map (fun l => interChars ',' (l.map quoteF)))) [] [] rows =
      rows ++ lines := by
  intro lines
  induction lines with
  | nil => intro rows h; exact absurd rfl h
  | cons l lines ih =>
    intro rows _ hall
    cases lines with
    | nil =>
      rw [List.map_cons, List.map_nil, interChars,
        csvGo_dataline_end l [] rows (hall l (List.mem_cons_self l [])), List.nil_append]
    | cons l2 lines2 =>
      rw [List.map_cons,
        interChars_cons '\n' (interChars ',' (l.map quoteF))
          ((l2 :: lines2).map (fun l => interChars ',' (l.map quoteF))) (by simp),
        csvGo_dataline_nl l _ [] rows (hall l (List.mem_cons_self l _)),
        List.nil_append,
        ih (rows ++ [l]) (List.cons_ne_nil l2 lines2)
          (fun l3 hl3 => hall l3 (List.mem_cons_of_mem _ hl3)),
        List.append_assoc, List.singleton_append]

theorem keys_cons (k : String) (v : Value) (r : Record) :
    keys ((k, v) :: r) = k :: keys r := rfl

theorem string_mk_data (s : String) : (⟨s.data⟩ : String) = s := by
  cases s
  rfl

theorem getVal_mem (k : String) (v : Value) :
    ∀ r : Record, getVal k r = some v → (k, v) ∈ r := by
  intro r
  induction r with
  | nil => intro h; exact absurd h (by simp [getVal])
  | cons p r ih =>
    obtain ⟨k2, v2⟩ := p
    intro h
    rw [getVal] at h
    by_cases h2 : k2 = k
    · rw [if_pos h2] at h
      obtain rfl := Option.some.inj h
      rw [h2]
      exact List.mem_cons_self _ _
    · rw [if_neg h2] at h
      exact List.mem_cons_of_mem _ (ih h)

theorem mem_keys_exists_getVal (k : String) :
    ∀ r : Record, k ∈ keys r → ∃ v, getVal k r = some v := by
  intro r
  induction r with
  | nil => intro h; exact absurd h (List.not_mem_nil k)
  | cons p r ih =>
    obtain ⟨k2, v2⟩ := p
    intro h
    by_cases h2 : k2 = k
    · exact ⟨v2, by rw [getVal, if_pos h2]⟩
    · have hk : k ∈ keys r := by
        rcases List.mem_cons.mp h with h1 | h1
        · exact absurd h1.symm h2
        · exact h1
      obtain ⟨v, hv⟩ := ih hk
      exact ⟨v, by rw [getVal, if_neg h2, hv]⟩

theorem jsFieldStr_vstr (r : Record) (k : String) (s : String)
    (h : getProp r k = Value.vstr s) : jsFieldStr r k = s := by
  rw [jsFieldStr, h, jsOr]
  by_cases hs : s = ""
  · subst hs
    rw [if_neg (by simp [truthy])]
    rfl
  · rw [if_pos (by simp [truthy, hs])]
    rfl

/-- A record whose values are all strings is recovered from its keys paired
with its exported field strings. -/
theorem papaRecord_roundtrip : ∀ r : Record, (keys r).Nodup →
    (∀ p ∈ r, ∃ s, p.2 = Value.vstr s) →
    ((keys r).zip ((keys r).map (fun h => jsFieldStr r h))).map
      (fun p => (p.1, Value.vstr p.2)) = r := by
  intro r
  induction r with
  | nil => intro _ _; rfl
  | cons p r ih =>
    obtain ⟨k, v⟩ := p
    intro hnd hstr
    obtain ⟨s, hs⟩ := hstr (k, v) (List.mem_cons_self _ _)
    simp only at hs
    subst hs
    have hk_not : k ∉ keys r := (List.nodup_cons.mp hnd).1
    have hhead : jsFieldStr ((k, Value.vstr s) :: r) k = s := by
      apply jsFieldStr_vstr
      rw [getProp, getVal, if_pos rfl]
      rfl
    have hcong : (keys r).map (fun h => jsFieldStr ((k, Value.vstr s) :: r) h) =
        (keys r).map (fun h => jsFieldStr r h) := by
      apply List.map_congr_left
      intro h hmem
      have hne : ¬ (k = h) := fun he => hk_not (he ▸ hmem)
      rw [jsFieldStr, jsFieldStr, getProp, getProp, getVal, if_neg hne]
    rw [keys_cons, List.map_cons, hhead, List.zip_cons_cons, List.map_cons, hcong,
      ih (List.nodup_cons.mp hnd).2 (fun p hp => hstr p (List.mem_cons_of_mem _ hp))]

/-- The raw rows the CSV state machine recovers from an exported collection:
the key row followed by one row of field strings per record. -/
theorem csvGo_csvChars (r0 : Record) (rs : List Record)
    (hne : keys r0 ≠ [])
    (hkchars : ∀ k ∈ keys r0, ∀ c ∈ k.data, ¬c = ',' ∧ ¬c = '\n' ∧ ¬c = '"') :
    csvGo false (csvChars (r0 :: rs)) [] [] [] =
      (keys r0).map String.data ::
        (r0 :: rs).map (fun r => (keys r0).map (fun h => (jsFieldStr r h).data)) := by
  rw [csvChars]
  have hlines : (r0 :: rs).map
      (fun r => interChars ',' ((keys r0).map (fun h => quoteF (jsFieldStr r h).data))) =
      ((r0 :: rs).map (fun r => (keys r0).map (fun h => (jsFieldStr r h).data))).map
        (fun l => interChars ',' (l.map quoteF)) := by
    rw [List.map_map]
    apply List.map_congr_left
    intro r _
    simp only [Function.comp_def, List.map_map]
  have hok : ∀ k2 ∈ (keys r0).map String.data, ∀ c ∈ k2,
      ¬c = ',' ∧ ¬c = '\n' ∧ ¬c = '"' := by
    intro k2 hk2
    obtain ⟨k, hk, rfl⟩ := List.mem_map.mp hk2
    exact hkchars k hk
  have hall : ∀ l ∈ (r0 :: rs).map
      (fun r => (keys r0).map (fun h => (jsFieldStr r h).data)), l ≠ [] := by
    intro l hl
    obtain ⟨r, _, rfl⟩ := List.mem_map.mp hl
    intro h
    exact hne (List.map_eq_nil_iff.mp h)
  rw [hlines,
    interChars_cons '\n' (interChars ',' ((keys r0).map String.data)) _ (by simp),
    csvGo_hdrline_nl ((keys r0).map String.data) _ [] [] (by simpa using hne) hok,
    List.nil_append, List.nil_append,
    csvGo_alllines _ _ (by simp) hall, List.singleton_append]

/-- Whether a value is a string. -/
def isStr : Value → Bool
  | .vstr _ => true
  | _ => false

theorem isStr_exists (v : Value) (h : isStr v = true) : ∃ s, v = Value.vstr s := by
  cases v with
  | vstr s => exact ⟨s, rfl⟩
  | vnum j => exact absurd h (by simp [isStr])
  | vbool b => exact absurd h (by simp [isStr])
  | vnull => exact absurd h (by simp [isStr])
  | vundefined => exact absurd h (by simp [isStr])

/-- The parsed rows of an exported collection: the key row followed by the
field-string rows, nothing skipped. -/
theorem papaRows_csvChars (r0 : Record) (rs : List Record)
    (hne : keys r0 ≠ [])
    (hkeys : ∀ k ∈ keys r0, k ≠ "" ∧ ∀ c ∈ k.data, ¬c = ',' ∧ ¬c = '\n' ∧ ¬c = '"')
    (hhomog : ∀ r ∈ r0 :: rs, keys r = keys r0)
    (hstr : ∀ r ∈ r0 :: rs, ∀ p ∈ r, isStr p.2 = true)
    (hsingle : ∀ r ∈ r0 :: rs, ∀ k, keys r0 = [k] → getProp r k ≠ Value.vstr "") :
    papaRows ⟨csvChars (r0 :: rs)⟩ =
      keys r0 :: (r0 :: rs).map (fun r => (keys r0).map (fun h => jsFieldStr r h)) := by
  rw [papaRows]
  have hdata : (⟨csvChars (r0 :: rs)⟩ : String).data = csvChars (r0 :: rs) := rfl
  rw [hdata, csvGo_csvChars r0 rs hne (fun k hk => (hkeys k hk).2)]
  have hkeep : ∀ row ∈ ((keys r0).map String.data ::
      (r0 :: rs).map (fun r => (keys r0).map (fun h => (jsFieldStr r h).data))),
      decide (row ≠ [[]]) = true := by
    intro row hrow
    apply decide_eq_true
    rcases List.mem_cons.mp hrow with rfl | hrow2
    · intro hcon
      have hlen := congrArg List.length hcon
      rw [List.length_map] at hlen
      obtain ⟨k, hk⟩ := List.length_eq_one.mp hlen
      rw [hk] at hcon
      simp only [List.map_cons, List.map_nil, List.cons.injEq, and_true] at hcon
      have hke : k = "" := by
        rw [← string_mk_data k, hcon]
      exact (hkeys k (by rw [hk]; exact List.mem_cons_self _ _)).1 hke
    · obtain ⟨r, hr, rfl⟩ := List.mem_map.mp hrow2
      intro hcon
      have hlen := congrArg List.length hcon
      rw [List.length_map] at hlen
      obtain ⟨k, hk⟩ := List.length_eq_one.mp hlen
      rw [hk] at hcon
      simp only [List.map_cons, List.map_nil, List.cons.injEq, and_true] at hcon
      have hkmem : k ∈ keys r := by
        rw [hhomog r hr, hk]
        exact List.mem_cons_self _ _
      obtain ⟨v, hv⟩ := mem_keys_exists_getVal k r hkmem
      obtain ⟨s, hs⟩ := isStr_exists v (hstr r hr (k, v) (getVal_mem k v r hv))
      subst hs
      have hgp : getProp r k = Value.vstr s := by
        rw [getProp, hv]
        rfl
      have hf : jsFieldStr r k = s := jsFieldStr_vstr r k s hgp
      have hsne : s ≠ "" := fun hse => hsingle r hr k hk (by rw [hgp, hse])
      rw [hf] at hcon
      exact hsne (by rw [← string_mk_data s, hcon])
  rw [List.filter_eq_self.mpr hkeep, List.map_cons]
  congr 1
  · rw [List.map_map]
    have : ∀ k ∈ keys r0, ((fun l => (⟨l⟩ : String)) ∘ String.data) k = id k :=
      fun k _ => string_mk_data k
    rw [List.map_congr_left this, List.map_id]
  · rw [List.map_map]
    apply List.map_congr_left
    intro r _
    show ((keys r0).map (fun h => (jsFieldStr r h).data)).map (fun l => (⟨l⟩ : String)) = _
    rw [List.map_map]
    apply List.map_congr_left
    intro h _
    exact string_mk_data (jsFieldStr r h)

/-- C2 (amended): exporting a non-empty homogeneous record collection whose
keys are distinct, non-empty and free of CSV metacharacters, whose values
are all strings, and which — when there is exactly one column — has no empty
field value, and re-parsing the produced text, recovers exactly the original
records (in particular the first record's key order). -/
theorem c2_csv_roundtrip (r0 : Record) (rs : List Record)
    (hne : keys r0 ≠ []) (hnd : (keys r0).Nodup)
    (hkeys : ∀ k ∈ keys r0, k ≠ "" ∧ ∀ c ∈ k.data, ¬c = ',' ∧ ¬c = '\n' ∧ ¬c = '"')
    (hhomog : ∀ r ∈ r0 :: rs, keys r = keys r0)
    (hstr : ∀ r ∈ r0 :: rs, ∀ p ∈ r, isStr p.2 = true)
    (hsingle : ∀ r ∈ r0 :: rs, ∀ k, keys r0 = [k] → getProp r k ≠ Value.vstr "") :
    downloadCsvFromArray (r0 :: rs) = some ⟨csvChars (r0 :: rs)⟩ ∧
    papaParseRecords ⟨csvChars (r0 :: rs)⟩ = r0 :: rs := by
  refine ⟨rfl, ?_⟩
  have hstr2 : ∀ r ∈ r0 :: rs, ∀ p ∈ r, ∃ s, p.2 = Value.vstr s :=
    fun r hr p hp => isStr_exists p.2 (hstr r hr p hp)
  rw [papaParseRecords, papaRows_csvChars r0 rs hne hkeys hhomog hstr hsingle]
  show ((r0 :: rs).map (fun r => (keys r0).map (fun h => jsFieldStr r h))).map
      (fun row => ((keys r0).zip row).map (fun p => (p.1, Value.vstr p.2))) = r0 :: rs
  have hrt : ∀ r ∈ r0 :: rs,
      ((keys r0).zip ((keys r0).map (fun h => jsFieldStr r h))).map
        (fun p => (p.1, Value.vstr p.2)) = r := by
    intro r hr
    have hk := hhomog r hr
    rw [← hk]
    exact papaRecord_roundtrip r (by rw [hk]; exact hnd) (hstr2 r hr)
  rw [List.map_map]
  have h2 : ∀ r ∈ r0 :: rs,
      ((fun row => ((keys r0).zip row).map (fun p => (p.1, Value.vstr p.2))) ∘
        (fun r => (keys r0).map (fun h => jsFieldStr r h))) r = id r :=
    fun r hr => hrt r hr
  rw [List.map_congr_left h2, List.map_id]

/-- C2 counterexample: a numeric field value 0 is falsy, exports as the
empty string, and re-parses as `""` — not its string form `"0"`. -/
theorem c2_roundtrip_counterexample :
    downloadCsvFromArray [[("a", Value.vstr "x"), ("b", Value.vnum (.int 0))]] =
      some "a,b\n\"x\",\"\"" ∧
    papaParseRecords "a,b\n\"x\",\"\"" =
      [[("a", Value.vstr "x"), ("b", Value.vstr "")]] ∧
    jsToString (Value.vnum (.int 0)) = "0" ∧
    Value.vstr "" ≠ Value.vstr "0" := by
  refine ⟨by decide, by decide, by decide, by decide⟩

/-- C2 witness: a two-record collection with commas, quotes and an empty
string among the values round-trips exactly. -/
theorem c2_csv_roundtrip_witness :
    papaParseRecords ⟨csvChars [[("a", Value.vstr "x,\"y\""), ("b", Value.vstr "")],
      [("a", Value.vstr "1"), ("b", Value.vstr "2")]]⟩ =
      [[("a", Value.vstr "x,\"y\""), ("b", Value.vstr "")],
        [("a", Value.vstr "1"), ("b", Value.vstr "2")]] :=
  (c2_csv_roundtrip [("a", Value.vstr "x,\"y\""), ("b", Value.vstr "")]
    [[("a", Value.vstr "1"), ("b", Value.vstr "2")]]
    (by decide) (by decide) (by decide) (by decide) (by decide)
    (by intro r hr k hk; injection hk with h1 h2; exact List.noConfusion h2)).2

end Sw
